import Mathlib

/-!
Verification of the cotati vector-graphics DSL core.

The development embeds the authoring pipeline of the repository:
drawable combinators (`crates/dsl/src/dsl/drawing.rs`,
`crates/dsl/src/dsl/text.rs`) linearize a description into an ordered
instruction log owned by a `Generator`; a backend `Device` later compiles
the finished log.  Stateful Rust code (`&mut G`) is embedded as explicit
state passing on the log; machine floats are never computed on in the
verified fragment, so `f32` payloads are carried opaquely.
-/

namespace Cotati

/-- Opaque carrier for Rust `f32` payloads.  The verified code only ever
moves `f32` values (into `Svalue::Number`, `Measurement`, …) and never
performs arithmetic or IEEE comparison on them, so an opaque bit payload
is a faithful model. -/
structure F32 where
  bits : Nat
deriving DecidableEq

/-- Drawing instruction.  `IR::String` and `IR::Animated` are the
constructors used in `crates/dsl/src/dsl/drawing.rs`; the scope
instructions are modelled from the spec's instruction catalogue
(`{Leaf(payload), ScopeOpen(payload), ScopeClose(count)}`, spec §3), the
`vglang_ir::IR` enum itself not being under `src/`.  Scope payloads
(decomposed attribute-bearing values such as `Font` or `Text`) are opaque
to the core and carried as tags. -/
inductive IR where
  | String (s : String)
  | Animated (name : String)
  | ScopeOpen (payload : String)
  | ScopeClose (count : Nat)
deriving DecidableEq

/-- The instruction log: the ordered, append-only record grown by one
authoring pass.  A fresh `Generator` holds the empty log. -/
abbrev Log := List IR

/-- Modelled from the spec: `Generator::push` (spec §4.4) appends one
instruction to the log (the `Generator` trait itself is not under
`src/`; only its callers are). -/
def push (g : Log) (ins : IR) : Log := g ++ [ins]

/-- Modelled from the spec: `Generator::push_from` (spec §4.4) decomposes
a structured attribute-bearing value into its `ScopeOpen` instruction;
per spec §4.3 each wrapper contributes exactly one open. -/
def pushFrom (g : Log) (payload : String) : Log := g ++ [IR.ScopeOpen payload]

/-- Modelled from the spec: `Generator::pop` (spec §4.4) appends a
`ScopeClose(count)` instruction. -/
def pop (g : Log) (count : Nat) : Log := g ++ [IR.ScopeClose count]

/-- Drawable descriptions built from the combinators the DSL provides:
`String`/`&str` leaves and the closure returned by `animated` (both
`impl Graphic` in `drawing.rs`), tuple sequences (`tuple_drawing!`),
one `Appliable` attribute scope (the shape of `impl Appliable for Font`
and `TextLayout` in `text.rs`), and one `WithContent` container (the
shape of `impl WithContent for Text` and `TextSpan`). -/
inductive Drawable where
  | str (s : String)
  | animated (name : String)
  | seq (items : List Drawable)
  | applied (attr : String) (inner : Drawable)
  | contained (parent : String) (inner : Drawable)

mutual

/-- Graphic::draw, consuming the description into the generator.
Leaves push one instruction (`drawing.rs` lines 27–50); an applied
scope or content container pushes its open, draws the inner graphic,
then pops one level (`text.rs`); a sequence draws its members
left-to-right (`tuple_drawing!`). -/
def Drawable.draw : Drawable → Log → Log
  | .str s, g => push g (.String s)
  | .animated n, g => push g (.Animated n)
  | .seq items, g => drawList items g
  | .applied a inner, g => pop (Drawable.draw inner (pushFrom g a)) 1
  | .contained p inner, g => pop (Drawable.draw inner (pushFrom g p)) 1

/-- Drawing of a tuple of graphics: the `tuple_drawing!` macro draws the
header, then each tail member in order. -/
def drawList : List Drawable → Log → Log
  | [], g => g
  | d :: ds, g => drawList ds (Drawable.draw d g)

end

/-- Appliable for tuples (`tuple_appliable!` in `drawing.rs`): the header
attribute wraps the target first, then each tail attribute wraps the
result in turn, so the fold runs left-to-right with the accumulated
graphic as the wrapped target. -/
def tupleApply (attrs : List String) (target : Drawable) : Drawable :=
  attrs.foldl (fun acc a => Drawable.applied a acc) target

mutual

/-- Drawing only ever appends: the instructions emitted by a description
do not depend on what the log already holds. -/
theorem draw_eq_append (d : Drawable) (g : Log) :
    d.draw g = g ++ d.draw [] := by
  cases d with
  | str s => simp [Drawable.draw, push]
  | animated n => simp [Drawable.draw, push]
  | seq items =>
      simp only [Drawable.draw]
      exact drawList_eq_append items g
  | applied a inner =>
      simp only [Drawable.draw, pushFrom, pop]
      rw [draw_eq_append inner (g ++ [IR.ScopeOpen a]),
        draw_eq_append inner ([] ++ [IR.ScopeOpen a])]
      simp
  | contained p inner =>
      simp only [Drawable.draw, pushFrom, pop]
      rw [draw_eq_append inner (g ++ [IR.ScopeOpen p]),
        draw_eq_append inner ([] ++ [IR.ScopeOpen p])]
      simp

/-- List version of `draw_eq_append`. -/
theorem drawList_eq_append (ds : List Drawable) (g : Log) :
    drawList ds g = g ++ drawList ds [] := by
  cases ds with
  | nil => simp [drawList]
  | cons d ds =>
      simp only [drawList]
      rw [drawList_eq_append ds (d.draw g), drawList_eq_append ds (d.draw []),
        draw_eq_append d g]
      simp

end

/-- Bracket weight of one instruction: `ScopeOpen` counts +1,
`ScopeClose(n)` counts −n, leaves count 0 (spec §3). -/
def scopeDelta : IR → Int
  | .ScopeOpen _ => 1
  | .ScopeClose n => -(n : Int)
  | .String _ => 0
  | .Animated _ => 0

/-- Running open/close counter summed over a log. -/
def runningSum (l : Log) : Int := (l.map scopeDelta).sum

/-- Every prefix of the log has a non-negative running counter. -/
def runningNonNeg (l : Log) : Prop := ∀ n, 0 ≤ runningSum (l.take n)

/-- A log is bracket-balanced when the counter never dips below zero and
ends at zero. -/
def balancedLog (l : Log) : Prop := runningNonNeg l ∧ runningSum l = 0

theorem runningSum_append (l₁ l₂ : Log) :
    runningSum (l₁ ++ l₂) = runningSum l₁ + runningSum l₂ := by
  simp [runningSum]

theorem runningSum_take_append (l₁ l₂ : Log) (n : Nat) :
    runningSum ((l₁ ++ l₂).take n) =
      runningSum (l₁.take n) + runningSum (l₂.take (n - l₁.length)) := by
  rw [List.take_append_eq_append_take, runningSum_append]

theorem balancedLog_nil : balancedLog [] :=
  ⟨fun n => by simp [runningSum], by simp [runningSum]⟩

theorem balancedLog_of_delta_zero (i : IR) (h : scopeDelta i = 0) :
    balancedLog [i] := by
  refine ⟨fun n => ?_, by simp [runningSum, h]⟩
  cases n with
  | zero => simp [runningSum]
  | succ m => simp [runningSum, h]

theorem balancedLog_append {l₁ l₂ : Log} (h₁ : balancedLog l₁)
    (h₂ : balancedLog l₂) : balancedLog (l₁ ++ l₂) := by
  refine ⟨fun n => ?_, ?_⟩
  · rw [runningSum_take_append]
    exact add_nonneg (h₁.1 n) (h₂.1 _)
  · rw [runningSum_append, h₁.2, h₂.2]
    simp

theorem runningSum_take_close_one (m : Nat) :
    -1 ≤ runningSum ([IR.ScopeClose 1].take m) := by
  cases m with
  | zero => simp [runningSum]
  | succ k => simp [runningSum, scopeDelta]

theorem balancedLog_wrap (a : String) {l : Log} (h : balancedLog l) :
    balancedLog (IR.ScopeOpen a :: (l ++ [IR.ScopeClose 1])) := by
  refine ⟨fun n => ?_, ?_⟩
  · cases n with
    | zero => simp [runningSum]
    | succ m =>
        rw [List.take_succ_cons]
        have h1 : runningSum (IR.ScopeOpen a :: ((l ++ [IR.ScopeClose 1]).take m)) =
            1 + runningSum ((l ++ [IR.ScopeClose 1]).take m) := by
          simp [runningSum, scopeDelta]
        rw [h1, runningSum_take_append]
        have h2 := h.1 m
        have h3 := runningSum_take_close_one (m - l.length)
        omega
  · have : runningSum (IR.ScopeOpen a :: (l ++ [IR.ScopeClose 1])) =
        1 + (runningSum l + runningSum [IR.ScopeClose 1]) := by
      simp [runningSum, scopeDelta]
    rw [this, h.2]
    simp [runningSum, scopeDelta]

mutual

/-- Every description draws a bracket-balanced block of instructions. -/
theorem draw_balanced (d : Drawable) : balancedLog (d.draw []) := by
  cases d with
  | str s =>
      have : Drawable.draw (.str s) [] = [IR.String s] := by
        simp [Drawable.draw, push]
      rw [this]
      exact balancedLog_of_delta_zero _ rfl
  | animated n =>
      have : Drawable.draw (.animated n) [] = [IR.Animated n] := by
        simp [Drawable.draw, push]
      rw [this]
      exact balancedLog_of_delta_zero _ rfl
  | seq items =>
      have : Drawable.draw (.seq items) [] = drawList items [] := by
        simp [Drawable.draw]
      rw [this]
      exact drawList_balanced items
  | applied a inner =>
      have : Drawable.draw (.applied a inner) [] =
          IR.ScopeOpen a :: (inner.draw [] ++ [IR.ScopeClose 1]) := by
        simp only [Drawable.draw, pushFrom, pop]
        rw [draw_eq_append inner ([] ++ [IR.ScopeOpen a])]
        simp
      rw [this]
      exact balancedLog_wrap a (draw_balanced inner)
  | contained p inner =>
      have : Drawable.draw (.contained p inner) [] =
          IR.ScopeOpen p :: (inner.draw [] ++ [IR.ScopeClose 1]) := by
        simp only [Drawable.draw, pushFrom, pop]
        rw [draw_eq_append inner ([] ++ [IR.ScopeOpen p])]
        simp
      rw [this]
      exact balancedLog_wrap p (draw_balanced inner)

/-- List version of `draw_balanced`. -/
theorem drawList_balanced (ds : List Drawable) : balancedLog (drawList ds []) := by
  cases ds with
  | nil =>
      have : drawList [] ([] : Log) = [] := by simp [drawList]
      rw [this]
      exact balancedLog_nil
  | cons d ds =>
      have : drawList (d :: ds) [] = d.draw [] ++ drawList ds [] := by
        simp only [drawList]
        rw [drawList_eq_append ds (d.draw [])]
      rw [this]
      exact balancedLog_append (draw_balanced d) (drawList_balanced ds)

end

theorem drawList_eq_flatten (ds : List Drawable) :
    drawList ds [] = (ds.map fun d => d.draw []).flatten := by
  induction ds with
  | nil => simp [drawList]
  | cons d ds ih =>
      simp only [drawList, List.map_cons, List.flatten]
      rw [drawList_eq_append ds (d.draw []), ih]

/-- Unfolding one `Appliable` wrapper around a drawn inner graphic. -/
theorem draw_applied_eq (a : String) (inner : Drawable) :
    (Drawable.applied a inner).draw [] =
      IR.ScopeOpen a :: (inner.draw [] ++ [IR.ScopeClose 1]) := by
  simp only [Drawable.draw, pushFrom, pop]
  rw [draw_eq_append inner ([] ++ [IR.ScopeOpen a])]
  simp

/-- Tuple `Appliable` nesting, fully unfolded: the head attribute is
applied to the target first (innermost), each later attribute wraps the
result, so the emitted opens appear in reverse listed order. -/
theorem draw_tupleApply (attrs : List String) (t : Drawable) (g : Log) :
    (tupleApply attrs t).draw g =
      g ++ (attrs.reverse.map IR.ScopeOpen) ++ t.draw [] ++
        List.replicate attrs.length (IR.ScopeClose 1) := by
  induction attrs generalizing t g with
  | nil => simp [tupleApply, draw_eq_append t g]
  | cons a as ih =>
      have hfold : tupleApply (a :: as) t = tupleApply as (.applied a t) := by
        simp [tupleApply, List.foldl_cons]
      rw [hfold, ih (.applied a t) g, draw_applied_eq a t]
      simp [List.replicate_succ]

/-- C1: drawing any description built from the provided combinators into
a fresh Generator yields a log whose running open/close counter (each
`ScopeOpen` +1, each `ScopeClose n` −n) never goes negative and equals
zero at the end of the authoring pass. -/
theorem authoring_scope_balance (d : Drawable) :
    (∀ n, 0 ≤ runningSum ((d.draw []).take n)) ∧ runningSum (d.draw []) = 0 :=
  ⟨(draw_balanced d).1, (draw_balanced d).2⟩

/-- C2 counterexample: applying the attribute tuple ("A","B","C") to the
leaf "t" does not emit open(A), open(B), open(C) first — the code wraps
the head attribute innermost, so the opens appear reversed. -/
theorem tuple_apply_listed_order_counterexample :
    (tupleApply ["A", "B", "C"] (.str "t")).draw [] ≠
      [IR.ScopeOpen "A", IR.ScopeOpen "B", IR.ScopeOpen "C", IR.String "t",
        IR.ScopeClose 1, IR.ScopeClose 1, IR.ScopeClose 1] := by
  have h : (tupleApply ["A", "B", "C"] (.str "t")).draw [] =
      [IR.ScopeOpen "C", IR.ScopeOpen "B", IR.ScopeOpen "A", IR.String "t",
        IR.ScopeClose 1, IR.ScopeClose 1, IR.ScopeClose 1] := by
    simp [tupleApply, Drawable.draw, push, pushFrom, pop]
  rw [h]
  simp

/-- C2 amended: when a tuple of scope attributes is applied to a target,
the scopes nest with the FIRST listed attribute innermost: the emitted
sequence is open of each attribute in reverse listed order, then the
target's instructions, then one `ScopeClose 1` per attribute. -/
theorem tuple_apply_reverse_nesting (attrs : List String) (t : Drawable) :
    (tupleApply attrs t).draw [] =
      (attrs.reverse.map IR.ScopeOpen) ++ t.draw [] ++
        List.replicate attrs.length (IR.ScopeClose 1) := by
  have h := draw_tupleApply attrs t []
  simpa using h

/-- C3: drawing a tuple of drawables yields exactly the concatenation of
the logs each member would produce when drawn individually, in the
original left-to-right order. -/
theorem tuple_draw_concat (ds : List Drawable) :
    (Drawable.seq ds).draw [] = (ds.map fun d => d.draw []).flatten := by
  have h : (Drawable.seq ds).draw [] = drawList ds [] := by
    simp [Drawable.draw]
  rw [h]
  exact drawList_eq_flatten ds

/-- C4: a string leaf appends exactly one `IR.String` instruction
carrying its text, and an `animated name` leaf appends exactly one
`IR.Animated name` instruction; existing log entries are unchanged. -/
theorem leaf_draw_appends_single (s name : String) (g : Log) :
    (Drawable.str s).draw g = g ++ [IR.String s] ∧
      (Drawable.animated name).draw g = g ++ [IR.Animated name] := by
  constructor <;> simp [Drawable.draw, push]

/-- C5: authoring is total pure data movement — `draw` is a total
function (no error or panic path exists in its embedding) and only ever
appends instructions to the Generator's log. -/
theorem draw_total_pure_append (d : Drawable) (g : Log) :
    ∃ emitted, d.draw g = g ++ emitted :=
  ⟨d.draw [], draw_eq_append d g⟩

/-- C6: drawing the same description twice is deterministic — the block
of instructions appended past the initial contents is identical across
any two runs, so two fresh Generators receive structurally identical
logs. -/
theorem draw_deterministic (d : Drawable) (g₁ g₂ : Log) :
    (d.draw g₁).drop g₁.length = (d.draw g₂).drop g₂.length := by
  rw [draw_eq_append d g₁, draw_eq_append d g₂]
  simp

/-- Backend-opaque artifact produced once per `compile` (spec §3). -/
structure Program where
  log : Log
deriving DecidableEq

/-- Error taxonomy of the compile/execute phases (spec §7). -/
inductive DeviceError where
  | StructuralError
  | UnresolvedReference (name : String)
  | BackendError (msg : String)
deriving DecidableEq

/-- Replay of the open/close counter over a log (spec §4.5 calls scope
imbalance "detectable generically by replaying the open/close counter"):
`none` records that the counter dipped below zero. -/
def replayCounter : Int → Log → Option Int
  | c, [] => some c
  | c, i :: rest =>
      let next := c + scopeDelta i
      if next < 0 then none else replayCounter next rest

/-- Modelled from the spec: `Device::compile` (spec §4.5/§7; no backend
implementation is under `src/`).  It replays the open/close counter over
the finished log and fails with `StructuralError` on any scope
imbalance, producing a `Program` only from a balanced log. -/
def compile (log : Log) : Except DeviceError Program :=
  match replayCounter 0 log with
  | some c => if c = 0 then .ok ⟨log⟩ else .error .StructuralError
  | none => .error .StructuralError

theorem replayCounter_eq_sum (l : Log) (c x : Int)
    (h : replayCounter c l = some x) : x = c + runningSum l := by
  induction l generalizing c with
  | nil =>
      simp only [replayCounter, Option.some.injEq] at h
      simp [runningSum, ← h]
  | cons i rest ih =>
      simp only [replayCounter] at h
      by_cases hc : c + scopeDelta i < 0
      · simp [hc] at h
      · simp only [hc, if_false] at h
        have := ih (c + scopeDelta i) h
        simp only [runningSum, List.map_cons, List.sum_cons] at this ⊢
        omega

/-- C7: compiling a log that contains an unmatched `ScopeOpen` (the
open/close counter ends strictly positive) returns `StructuralError`
and never produces a Program. -/
theorem compile_unmatched_open_fails (log : Log) (h : 0 < runningSum log) :
    compile log = .error DeviceError.StructuralError ∧
      ∀ p, compile log ≠ Except.ok p := by
  have herr : compile log = .error DeviceError.StructuralError := by
    unfold compile
    cases hr : replayCounter 0 log with
    | none => rfl
    | some c =>
        have hc := replayCounter_eq_sum log 0 c hr
        have hne : ¬c = 0 := by omega
        simp [hne]
  exact ⟨herr, fun p hp => by rw [herr] at hp; exact Except.noConfusion hp⟩

/-- Witness for C7 at the one-instruction log `[ScopeOpen "a"]`. -/
theorem compile_unmatched_open_fails_witness :
    compile [IR.ScopeOpen "a"] = .error DeviceError.StructuralError ∧
      ∀ p, compile [IR.ScopeOpen "a"] ≠ Except.ok p :=
  compile_unmatched_open_fails [IR.ScopeOpen "a"] (by decide)

/-- Heterogeneous argument tuple for `tuple_map_collect!`
(`crates/ir/src/primitives.rs`): each component carries its own
`Into<Item>` conversion, mirroring the per-component bound
`$header: Into<$item>`. -/
inductive IntoList (Item : Type) : Type 1 where
  | nil : IntoList Item
  | cons {α : Type} (value : α) (into : α → Item) (rest : IntoList Item) :
      IntoList Item

/-- Tuple `map_collect` (`tuple_map_collect!`): the generated body is
`vec![header.into(), tail0.into(), ...]`. -/
def IntoList.mapCollect {Item : Type} : IntoList Item → List Item
  | .nil => []
  | .cons value into rest => into value :: rest.mapCollect

/-- Single-value `map_collect` (`impl<F, T> MapCollect<T> for F` in
`primitives.rs`): the body is `vec![self.into()]`. -/
def mapCollectSingle {F T : Type} (into : F → T) (self : F) : List T :=
  [into self]

/-- Conversions of the tuple's components collected in the tuple's
left-to-right order — the spec's reading of the one-or-many collection
convenience, stated independently of the macro body. -/
def IntoList.conversionList {Item : Type} : IntoList Item → List Item
  | .nil => []
  | .cons value into rest => [into value] ++ rest.conversionList

/-- C8: the one-or-many collection convenience returns exactly the
one-element vector of the single value's conversion, and for a tuple the
vector of the components' conversions in left-to-right order. -/
theorem map_collect_one_or_many {Item F : Type} (into : F → Item) (x : F)
    (l : IntoList Item) :
    mapCollectSingle into x = [into x] ∧ l.mapCollect = l.conversionList := by
  refine ⟨rfl, ?_⟩
  induction l with
  | nil => rfl
  | cons v f rest ih =>
      simp [IntoList.mapCollect, IntoList.conversionList, ih]

/-- Modelled from the spec: opaque payload carrier for `Slength`
(the `length` module of the sexpr crate is not under `src/`; its values
are only moved by the verified conversions). -/
structure Slength where
  tag : Nat
deriving DecidableEq

/-- Modelled from the spec: opaque payload carrier for `Srgb` (the
`color` module is not under `src/`). -/
structure Srgb where
  tag : Nat
deriving DecidableEq

/-- Modelled from the spec: opaque payload carrier for
`StextLengthAdjust` (the `text` module is not under `src/`). -/
structure StextLengthAdjust where
  tag : Nat
deriving DecidableEq

/-- Modelled from the spec: opaque payload carrier for `Sangle` (the
`angle` module is not under `src/`). -/
structure Sangle where
  tag : Nat
deriving DecidableEq

/-- Modelled from the spec: opaque carrier for `Sexpr` fragments (the
`Sexpr` type is not under `src/`; `Svalue::Fragment` only stores it). -/
structure Sexpr where
  tag : Nat
deriving DecidableEq

/-- Svalue: constant / literal / register value
(`crates/sexpr/src/expr/s_value/mod.rs`). -/
inductive Svalue where
  | Length (v : Slength)
  | Number (v : F32)
  | String (s : String)
  | Rgb (v : Srgb)
  | TextLengthAdjust (v : StextLengthAdjust)
  | Angle (v : Sangle)
  | ListOf (vs : List Svalue)
  | Fragment (es : List Sexpr)

/-- From&lt;f32&gt; for Svalue. -/
def svalueFromF32 (value : F32) : Svalue := .Number value

/-- TryFrom&lt;Svalue&gt; for f32: `Ok(v)` on the `Number` variant,
otherwise `Err(value)` returning the original value. -/
def svalueTryIntoF32 : Svalue → Except Svalue F32
  | .Number v => .ok v
  | value => .error value

/-- From&lt;String&gt; for Svalue. -/
def svalueFromString (value : String) : Svalue := .String value

/-- TryFrom&lt;Svalue&gt; for String: `Ok(v)` on the `String` variant,
otherwise `Err(value)` returning the original value. -/
def svalueTryIntoString : Svalue → Except Svalue String
  | .String v => .ok v
  | value => .error value

/-- C9: the Svalue conversions round-trip and fail atomically — a
converted f32 or String reads back as `Ok` of the same payload, while a
value of any other variant comes back as `Err` carrying the original
value unchanged. -/
theorem svalue_round_trip (x : F32) (s : String) (v w : Svalue)
    (hv : ∀ y, v ≠ Svalue.Number y) (hw : ∀ t, w ≠ Svalue.String t) :
    svalueTryIntoF32 (svalueFromF32 x) = Except.ok x ∧
      svalueTryIntoString (svalueFromString s) = Except.ok s ∧
      svalueTryIntoF32 v = Except.error v ∧
      svalueTryIntoString w = Except.error w := by
  refine ⟨rfl, rfl, ?_, ?_⟩
  · cases v with
    | Number y => exact absurd rfl (hv y)
    | Length a => rfl
    | String a => rfl
    | Rgb a => rfl
    | TextLengthAdjust a => rfl
    | Angle a => rfl
    | ListOf a => rfl
    | Fragment a => rfl
  · cases w with
    | String t => exact absurd rfl (hw t)
    | Length a => rfl
    | Number a => rfl
    | Rgb a => rfl
    | TextLengthAdjust a => rfl
    | Angle a => rfl
    | ListOf a => rfl
    | Fragment a => rfl

/-- Witness for C9 at concrete payloads. -/
theorem svalue_round_trip_witness :
    svalueTryIntoF32 (svalueFromF32 ⟨0⟩) = Except.ok (⟨0⟩ : F32) ∧
      svalueTryIntoString (svalueFromString "s") = Except.ok "s" ∧
      svalueTryIntoF32 (Svalue.String "x") = Except.error (Svalue.String "x") ∧
      svalueTryIntoString (Svalue.Number ⟨1⟩) =
        Except.error (Svalue.Number ⟨1⟩) :=
  svalue_round_trip ⟨0⟩ "s" (Svalue.String "x") (Svalue.Number ⟨1⟩)
    (fun _ h => Svalue.noConfusion h) (fun _ h => Svalue.noConfusion h)

/-- Modelled from the spec: `Animatable<T>` is a tagged union, either a
constant value or a named animation-register reference (spec §3; the
defining module of the ir crate is not under `src/`). -/
inductive Animatable (α : Type) where
  | Constant (value : α)
  | Animated (name : String)

/-- Unit identifier catalogue (`crates/ir/src/dimension.rs`). -/
inductive Unit where
  | Em
  | Ex
  | Px
  | In
  | Cm
  | Mm
  | Pt
  | Pc
  | Percentages
deriving DecidableEq

/-- Measurement: a number along with an optional unit
(`crates/ir/src/dimension.rs`). -/
structure Measurement where
  value : F32
  unit : Option Unit
deriving DecidableEq

/-- Meet-or-slice selector (`dimension.rs`). -/
inductive MeetOrSlice where
  | Meet
  | Slice
deriving DecidableEq

/-- PreserveAspectRatio catalogue (`dimension.rs`). -/
inductive PreserveAspectRatio where
  | xMinYMin (m : MeetOrSlice)
  | xMidYMin (m : MeetOrSlice)
  | xMaxYMin (m : MeetOrSlice)
  | xMinYMid (m : MeetOrSlice)
  | xMidYMid (m : MeetOrSlice)
  | xMaxYMid (m : MeetOrSlice)
  | xMinYMax (m : MeetOrSlice)
  | xMidYMax (m : MeetOrSlice)
  | xMaxYMax (m : MeetOrSlice)
deriving DecidableEq

/-- ViewBox (`dimension.rs`). -/
structure ViewBox where
  minx : Animatable Measurement
  miny : Animatable Measurement
  width : Animatable Measurement
  height : Animatable Measurement
  aspect : Option (Animatable PreserveAspectRatio)

/-- Layer (`crates/ir/src/layer.rs`). -/
structure Layer where
  width : Animatable Measurement
  height : Animatable Measurement
  viewbox : Option (Animatable ViewBox)

/-- From&lt;(W, H)&gt; for Layer (`layer.rs` lines 17–28), with the
`Measurement: From<W> + From<H>` bound embedded as explicit conversion
functions. -/
def Layer.fromPair {W H : Type} (intoW : W → Measurement)
    (intoH : H → Measurement) (value : W × H) : Layer :=
  { width := Animatable.Constant (intoW value.1),
    height := Animatable.Constant (intoH value.2),
    viewbox := none }

/-- C10: constructing a Layer from a pair (w, h) always wraps the
converted values as `Animatable.Constant` for width and height and
leaves the viewbox `none` — the tuple conversion produces no `Animated`
reference and no viewbox. -/
theorem layer_from_pair_constant {W H : Type} (intoW : W → Measurement)
    (intoH : H → Measurement) (w : W) (hgt : H) :
    (Layer.fromPair intoW intoH (w, hgt)).width =
        Animatable.Constant (intoW w) ∧
      (Layer.fromPair intoW intoH (w, hgt)).height =
        Animatable.Constant (intoH hgt) ∧
      (Layer.fromPair intoW intoH (w, hgt)).viewbox = none :=
  ⟨rfl, rfl, rfl⟩

end Cotati
